import Mathlib

/-!
# Waveform generator: subscriber registry, framing and waveform tables

A shallow embedding of `cmd/waveform-generator/generator.go` (and of the
simpler `cmd/generator/generator.go`, whose registry code is identical).

* The registry `subs` is a `container/list` list.  The list is embedded at the
  level of its elements: a store of `Element` cells addressed by natural
  numbers, the sentinel `root` living at address `0`, pointers being
  `Option Nat` (`none` is `nil`).  Dereferencing `nil` aborts the operation
  (`none`), as the Go runtime panics.
* `Subscriber.Send` is embedded twice: at the level of the registry its
  outcome is decided by the peer, so `updateSubscribers` takes the outcome of
  each send as a function `fails`; at the level of bytes `Subscriber.Send`
  produces the frame that reaches the connection.
* Values of type `float64` are kept abstract (a type `R`); the only facts used
  about them are stated where they are used.
-/

namespace Waveform

/-! ## `container/list` -/

/-- An element of a linked list: `next`, `prev`, the owning list (`list`, where
`true` stands for the one list of the program, `subs`, and `false` for `nil`) and
the stored `Value`, here the handle of a `*Subscriber`. -/
structure Element where
  next : Option Nat
  prev : Option Nat
  list : Bool
  Value : Nat
deriving DecidableEq, Repr

/-- The list `subs`: the store of its elements (address `0` is `&l.root`), the
field `len`, and the next unused address of the allocator. -/
structure GoList where
  mem : Nat → Element
  len : Int
  top : Nat

/-- The zero value of `Element`. -/
def Element.zero : Element := ⟨none, none, false, 0⟩

/-- Address of the sentinel, `&l.root`. -/
def rootAddr : Nat := 0

/-- Store update `(*p) = f (*p)`. -/
def GoList.modify (l : GoList) (p : Nat) (f : Element → Element) : GoList :=
  { l with mem := fun q => if q = p then f (l.mem q) else l.mem q }

/-- The assignment `p.next = v`. -/
def GoList.setNext (l : GoList) (p : Nat) (v : Option Nat) : GoList :=
  l.modify p (fun c => { c with next := v })

/-- The assignment `p.prev = v`. -/
def GoList.setPrev (l : GoList) (p : Nat) (v : Option Nat) : GoList :=
  l.modify p (fun c => { c with prev := v })

/-- The assignment `p.list = v`. -/
def GoList.setList (l : GoList) (p : Nat) (v : Bool) : GoList :=
  l.modify p (fun c => { c with list := v })

/-- Go `(*List).Init`: `l.root.next = &l.root; l.root.prev = &l.root; l.len = 0`. -/
def GoList.Init (l : GoList) : GoList :=
  let l1 := l.setNext rootAddr (some rootAddr)
  let l2 := l1.setPrev rootAddr (some rootAddr)
  { l2 with len := 0 }

/-- Go `list.New`: `new(List).Init()`. -/
def GoList.New : GoList :=
  GoList.Init { mem := fun _ => Element.zero, len := 0, top := 1 }

/-- Go `(*List).Len`. -/
def GoList.Len (l : GoList) : Int := l.len

/-- Go `(*List).Front`: `nil` when `l.len == 0`, else `l.root.next`. -/
def GoList.Front (l : GoList) : Option Nat :=
  if l.len = 0 then none else (l.mem rootAddr).next

/-- Go `(*Element).Next`:
`if p := e.next; e.list != nil && p != &e.list.root { return p }; return nil`. -/
def GoList.Next (l : GoList) (e : Nat) : Option Nat :=
  let p := (l.mem e).next
  if (l.mem e).list = true ∧ p ≠ some rootAddr then p else none

/-- Go `(*List).lazyInit`: `if l.root.next == nil { l.Init() }`. -/
def GoList.lazyInit (l : GoList) : GoList :=
  if (l.mem rootAddr).next = none then l.Init else l

/-- Go `(*List).insert(e, at)`:
`e.prev = at; e.next = at.next; e.prev.next = e; e.next.prev = e; e.list = l; l.len++`. -/
def GoList.insert (l : GoList) (e : Nat) (mark : Option Nat) : Option GoList := do
  let l1 := l.setPrev e mark
  let a ← mark
  let l2 := l1.setNext e (l1.mem a).next
  let p ← (l2.mem e).prev
  let l3 := l2.setNext p (some e)
  let n ← (l3.mem e).next
  let l4 := l3.setPrev n (some e)
  let l5 := l4.setList e true
  pure { l5 with len := l5.len + 1 }

/-- The allocation `&Element{Value: v}`: a new cell, at the address `l.top`. -/
def GoList.alloc (l : GoList) (v : Nat) : GoList :=
  { (l.modify l.top (fun _ => { Element.zero with Value := v })) with top := l.top + 1 }

/-- Go `(*List).insertValue(v, at)`: `l.insert(&Element{Value: v}, at)`; the new
element is allocated at the address `l.top`. -/
def GoList.insertValue (l : GoList) (v : Nat) (mark : Option Nat) : Option (Nat × GoList) := do
  let e := l.top
  let l1 := l.alloc v
  let l2 ← l1.insert e mark
  pure (e, l2)

/-- Go `(*List).PushBack(v)`: `l.lazyInit(); return l.insertValue(v, l.root.prev)`. -/
def GoList.PushBack (l : GoList) (v : Nat) : Option (Nat × GoList) :=
  let l1 := l.lazyInit
  l1.insertValue v (l1.mem rootAddr).prev

/-- Go `(*List).remove(e)`:
`e.prev.next = e.next; e.next.prev = e.prev; e.next = nil; e.prev = nil; e.list = nil; l.len--`. -/
def GoList.remove (l : GoList) (e : Nat) : Option GoList := do
  let p ← (l.mem e).prev
  let l1 := l.setNext p (l.mem e).next
  let n ← (l1.mem e).next
  let l2 := l1.setPrev n (l1.mem e).prev
  let l3 := l2.setNext e none
  let l4 := l3.setPrev e none
  let l5 := l4.setList e false
  pure { l5 with len := l5.len - 1 }

/-- Go `(*List).Remove(e)`: `if e.list == l { l.remove(e) }`. -/
def GoList.Remove (l : GoList) (e : Nat) : Option GoList :=
  if (l.mem e).list = true then l.remove e else some l

/-- The loop `for e := l.Front(); e != nil; e = e.Next()` collecting the
addresses it visits; `fuel` bounds the number of iterations. -/
def GoList.walk (l : GoList) : Nat → Option Nat → List Nat
  | 0, _ => []
  | _, none => []
  | fuel + 1, some e => e :: GoList.walk l fuel (l.Next e)

/-- The addresses of the elements of the list, front to back. -/
def GoList.addrs (l : GoList) : List Nat :=
  l.walk l.len.toNat l.Front

/-- The values stored in the list, front to back. -/
def GoList.values (l : GoList) : List Nat :=
  l.addrs.map (fun p => (l.mem p).Value)

/-! ## Samples, subscribers and the registry -/

/-- Go `Sample`: `Timestamp int64` and `Value float64`. -/
structure Sample (R : Type) where
  Timestamp : Int
  Value : R

/-- One invocation of `Subscriber.Send`: the subscriber (its handle), the sample
and whether the call returned an error. -/
structure SendEvent (R : Type) where
  sub : Nat
  sample : Sample R
  err : Bool

/-- The state the two functions of the registry act on: the list `subs`, the
`*Subscriber` objects allocated so far (the connection each one wraps; the
handle of a subscriber is its position), the invocations of `Send` so far, oldest
first, and the subscribers on which `Close` has been invoked. -/
structure World (R : Type) where
  subs : GoList
  conns : List Nat
  sends : List (SendEvent R)
  closed : List Nat

/-- The state at program start: `subs = list.New()`, nothing allocated or sent. -/
def World.init (R : Type) : World R :=
  { subs := GoList.New, conns := [], sends := [], closed := [] }

/-- Go `NewSubscriber(conn)`: a new `*Subscriber` wrapping `conn`. -/
def NewSubscriber {R : Type} (conn : Nat) (w : World R) : Nat × World R :=
  (w.conns.length, { w with conns := w.conns ++ [conn] })

/-- Go `(*Subscriber).Close`: `s.conn.Close()`. -/
def Subscriber.Close {R : Type} (s : Nat) (w : World R) : World R :=
  { w with closed := w.closed ++ [s] }

/-- Go `addSubscriber(conn)`: `subs.PushBack(NewSubscriber(conn))`. -/
def addSubscriber {R : Type} (conn : Nat) (w : World R) : Option (World R) := do
  let (s, w1) := NewSubscriber conn w
  let (_, l) ← w1.subs.PushBack s
  pure { w1 with subs := l }

/-- The loop of `updateSubscribers`, from the cursor `e`:
```
for e != nil {
    s := e.Value.(*Subscriber)
    if err := s.Send(sample); err != nil {
        subs.Remove(e)
    }
    e = e.Next()
}
```
`fails s` is the outcome of `s.Send(sample)`; `fuel` bounds the iterations and
`none` is returned when it runs out (or on a nil dereference). -/
def updateLoop {R : Type} (fails : Nat → Bool) (sample : Sample R) :
    Nat → Option Nat → World R → Option (World R)
  | _, none, w => some w
  | 0, some _, _ => none
  | fuel + 1, some e, w =>
    let s := (w.subs.mem e).Value
    let w1 : World R := { w with sends := w.sends ++ [⟨s, sample, fails s⟩] }
    let r : Option (World R) :=
      if fails s = true then (w1.subs.Remove e).map (fun l => { w1 with subs := l })
      else some w1
    match r with
    | none => none
    | some w2 => updateLoop fails sample fuel (w2.subs.Next e) w2

/-- Go `updateSubscribers(sample)`: `e := subs.Front()` and the loop. -/
def updateSubscribers {R : Type} (fuel : Nat) (fails : Nat → Bool) (sample : Sample R)
    (w : World R) : Option (World R) :=
  updateLoop fails sample fuel w.subs.Front w

/-- The subscribers currently registered, in list order. -/
def World.registry {R : Type} (w : World R) : List Nat := w.subs.values

/-- The subscribers `Send` was invoked on from position `n` of the record on, with
the outcome of each call. -/
def World.sentSince {R : Type} (w : World R) (n : Nat) : List (Nat × Bool) :=
  (w.sends.drop n).map (fun ev => (ev.sub, ev.err))


/-! ## The shape of a well-formed list -/

/-- The last address of the path `a, ps`. -/
def lastFrom : Nat → List Nat → Nat
  | a, [] => a
  | _, p :: ps => lastFrom p ps

/-- The cells `a, ps, b` are doubly linked in this order: `next` leads from each
one to the following one and `prev` back. -/
def Linked (m : Nat → Element) : Nat → List Nat → Nat → Prop
  | a, [], b => (m a).next = some b ∧ (m b).prev = some a
  | a, p :: ps, b => (m a).next = some p ∧ (m p).prev = some a ∧ Linked m p ps b

/-- The list `l` is the ring `root, ps, root` of distinct allocated elements, all
owned by `l`, and `len` is their number. -/
structure IsList (l : GoList) (ps : List Nat) : Prop where
  linked : Linked l.mem rootAddr ps rootAddr
  nodup : ps.Nodup
  root : rootAddr ∉ ps
  owned : ∀ p ∈ ps, (l.mem p).list = true
  below : ∀ p ∈ ps, p < l.top
  top : 0 < l.top
  len : l.len = ps.length


/-- The states the registry can be in: the initial state and whatever calls of
`addSubscriber` and `updateSubscribers` (with any sample and any outcome of the
sends) make of it. -/
inductive Reachable {R : Type} : World R → Prop
  | init : Reachable (World.init R)
  | add {w w1 : World R} (conn : Nat) :
      Reachable w → addSubscriber conn w = some w1 → Reachable w1
  | update {w w1 : World R} (fuel : Nat) (fails : Nat → Bool) (sample : Sample R) :
      Reachable w → updateSubscribers fuel fails sample w = some w1 → Reachable w1

/-- The registry of `w` is a well-formed list whose elements hold distinct
subscribers, all of them allocated. -/
def WellFormed {R : Type} (w : World R) (ps : List Nat) : Prop :=
  IsList w.subs ps ∧ (ps.map (fun p => (w.subs.mem p).Value)).Nodup ∧
    ∀ p ∈ ps, (w.subs.mem p).Value < w.conns.length

/-- In the record of sends, no subscriber appears again after a send to it failed. -/
def NoSendAfterFailure {R : Type} (sends : List (SendEvent R)) : Prop :=
  sends.Pairwise (fun a b => a.err = true → b.sub ≠ a.sub)

/-- The invariant of the registry: well-formedness, every recorded send went to an
allocated subscriber, a subscriber with a failed send is not registered, and no
subscriber was sent to after a failure. -/
def Invariant {R : Type} (w : World R) : Prop :=
  ∃ ps, WellFormed w ps ∧ (∀ ev ∈ w.sends, ev.sub < w.conns.length) ∧
    (∀ ev ∈ w.sends, ev.err = true → ev.sub ∉ w.registry) ∧ NoSendAfterFailure w.sends

/-! ## Concrete registries -/

/-- The registry after one connection (handle `7`) was accepted. -/
def world1 : World Int := (addSubscriber 7 (World.init Int)).get rfl

/-- The registry after a second connection was accepted: subscribers `0` and `1`. -/
def world2 : World Int := (addSubscriber 8 world1).get rfl

/-- The registry after a third connection was accepted: subscribers `0`, `1`, `2`. -/
def world3 : World Int := (addSubscriber 9 world2).get rfl

/-- A sample: `Sample{Timestamp: 1700000000, Value: 30}`. -/
def sample0 : Sample Int := ⟨1700000000, 30⟩

/-- The state after a pass over `world3` in which the send to subscriber `1` fails. -/
def world4 : World Int := (updateSubscribers 3 (fun s => s == 1) sample0 world3).get rfl


/-! ## Waveform generators and the ticker -/

/-- Go `int` arithmetic: a result is reduced to the 64-bit two's complement range. -/
def wrapInt (x : Int) : Int := (x + 2 ^ 63) % 2 ^ 64 - 2 ^ 63

/-- The slice access `xs[i]`: `none` (a run-time panic) when `i` is out of range. -/
def sliceIndex {R : Type} (xs : List R) (i : Int) : Option R :=
  if 0 ≤ i ∧ i < xs.length then xs[i.toNat]? else none

/-- Go `ArrayGenerator`: the table `factors` and the cursor `index`. -/
structure ArrayGenerator (R : Type) where
  factors : List R
  index : Int

/-- Go `(*ArrayGenerator).Next`:
```
f := g.factors[g.index]
g.index++
if g.index == len(g.factors) { g.index = 0 }
return f
```
-/
def ArrayGenerator.Next {R : Type} (g : ArrayGenerator R) : Option (R × ArrayGenerator R) := do
  let f ← sliceIndex g.factors g.index
  let i := wrapInt (g.index + 1)
  let i := if i = g.factors.length then 0 else i
  pure (f, { g with index := i })

/-- The values of `k` successive calls of `Next`, with the generator they leave. -/
def ArrayGenerator.nextN {R : Type} :
    Nat → ArrayGenerator R → Option (List R × ArrayGenerator R)
  | 0, g => some ([], g)
  | k + 1, g => do
    let (f, g1) ← g.Next
    let (fs, g2) ← ArrayGenerator.nextN k g1
    pure (f :: fs, g2)

/-- Go `SineGenerator`: the `step` and the phase `x`. -/
structure SineGenerator (R : Type) where
  step : R
  x : R

/-- Go `(*SineGenerator).Next`: `f := math.Sin(g.x); g.x += g.step; return f`, with
`math.Sin` passed as `sin`. -/
def SineGenerator.Next {R : Type} [Add R] (sin : R → R) (g : SineGenerator R) :
    R × SineGenerator R :=
  (sin g.x, { g with x := g.x + g.step })

/-- Go interface `Generator`, with its two implementations. -/
inductive Generator (R : Type) where
  | array (g : ArrayGenerator R)
  | sine (g : SineGenerator R)

/-- The method `Next` of the interface. -/
def Generator.Next {R : Type} [Add R] (sin : R → R) :
    Generator R → Option (R × Generator R)
  | .array g => g.Next.map (fun r => (r.1, .array r.2))
  | .sine g => let r := g.Next sin; some (r.1, .sine r.2)

section tables
variable {R : Type} [One R] [Zero R] [Neg R] [OfScientific R]

/-- Go `square`: eight times `1.000000`, eight times `-1.000000`. -/
def square : List R :=
  [1, 1, 1, 1, 1, 1, 1, 1, -1, -1, -1, -1, -1, -1, -1, -1]

/-- Go `triangle`. -/
def triangle : List R :=
  [-1, -0.75, -0.5, -0.25, 0, 0.25, 0.5, 0.75, 1, 0.75, 0.5, 0.25, 0, -0.25, -0.5, -0.75]

/-- Go `sawtooth`. -/
def sawtooth : List R :=
  [-1, -0.875, -0.75, -0.625, -0.5, -0.375, -0.25, -0.125, 0, 0.125, 0.25, 0.375, 0.5, 0.625,
    0.75, 0.875]

/-- The selection of the waveform in `main`, from the value of `GEN_WAVEFORM`;
`piOver8` is `math.Pi / 8`.  Returns the generator and the name that is logged. -/
def selectGenerator (piOver8 : R) (waveform : String) : Generator R × String :=
  if waveform = "square" then (.array { factors := square, index := 0 }, waveform)
  else if waveform = "triangle" then (.array { factors := triangle, index := 0 }, waveform)
  else if waveform = "sawtooth" then (.array { factors := sawtooth, index := 0 }, waveform)
  else (.sine { step := piOver8, x := 0 }, "sine")

end tables

/-- The sample `emit` builds on one tick, at the time `unix` (`t.Unix()`):
`v := g.Next() * amp; s := &Sample{Timestamp: t.Unix(), Value: v}`. -/
def emitSample {R : Type} [Add R] [Mul R] (sin : R → R) (amp : R) (unix : Int)
    (g : Generator R) : Option (Sample R × Generator R) := do
  let (f, g1) ← g.Next sin
  pure (⟨unix, f * amp⟩, g1)

/-- One iteration of the loop of `emit`: the sample is built and handed to
`updateSubscribers`; `fails` tells which sends of this tick fail. -/
def emitTick {R : Type} [Add R] [Mul R] (sin : R → R) (amp : R) (fuel : Nat)
    (unix : Int) (fails : Nat → Bool) (st : Generator R × World R) :
    Option (Generator R × World R) := do
  let (s, g1) ← emitSample sin amp unix st.1
  let w1 ← updateSubscribers fuel fails s st.2
  pure (g1, w1)

/-- The samples `emit` builds on successive ticks, at the times `ticks`. -/
def emitSamples {R : Type} [Add R] [Mul R] (sin : R → R) (amp : R) :
    List Int → Generator R → Option (List (Sample R) × Generator R)
  | [], g => some ([], g)
  | unix :: ticks, g => do
    let (s, g1) ← emitSample sin amp unix g
    let (ss, g2) ← emitSamples sin amp ticks g1
    pure (s :: ss, g2)

/-- Go `emit(g, amp)`, over the ticks that have fired: each tick carries its time and
the outcome of the sends of that tick. -/
def emit {R : Type} [Add R] [Mul R] (sin : R → R) (amp : R) (fuel : Nat) :
    List (Int × (Nat → Bool)) → Generator R × World R → Option (Generator R × World R)
  | [], st => some st
  | tick :: ticks, st => do
    let st1 ← emitTick sin amp fuel tick.1 tick.2 st
    emit sin amp fuel ticks st1


/-! ## The frame written by `Subscriber.Send` -/

/-- The delimiter byte written by `s.w.WriteByte(0)`. -/
def NUL : Char := Char.ofNat 0

/-- The line feed `json.Encoder.Encode` writes after the encoded value. -/
def LF : Char := Char.ofNat 10

/-- Decimal text of an `int64`, as `encoding/json` writes an integer field. -/
def formatInt (i : Int) : List Char :=
  if i < 0 then '-' :: Nat.toDigits 10 (-i).toNat else Nat.toDigits 10 i.toNat

/-- The JSON encoding of a `Sample`, `json.Marshal(sample)`: the fields in declaration
order under the names of their tags.  `formatFloat` is the text `encoding/json` writes
for a `float64`; it is `none` for a value JSON cannot carry (NaN, ±Inf), for which
`Marshal` returns an error. -/
def marshal {R : Type} (formatFloat : R → Option (List Char)) (sample : Sample R) :
    Option (List Char) :=
  (formatFloat sample.Value).map (fun v =>
    "\x7b\"timestamp\":".toList ++ formatInt sample.Timestamp ++ ",\"value\":".toList ++ v ++
      "\x7d".toList)

/-- A connection: the bytes written to it so far and whether writing to it fails. -/
structure Conn where
  wire : List Char
  broken : Bool

/-- Go `Subscriber`: the connection and the `bufio.Writer` on it (the bytes it
buffers and its sticky error); the encoder writes to the `bufio.Writer`. -/
structure Subscriber where
  conn : Conn
  buf : List Char
  werr : Bool

/-- Go `(*bufio.Writer).Write` for data that fits in the buffer (the buffer holds 4096
bytes, a frame far fewer): an error if the writer already failed, else the bytes are
buffered. -/
def Subscriber.bufWrite (s : Subscriber) (p : List Char) : Bool × Subscriber :=
  if s.werr then (true, s) else (false, { s with buf := s.buf ++ p })

/-- Go `(*bufio.Writer).WriteByte(c)`, likewise. -/
def Subscriber.bufWriteByte (s : Subscriber) (c : Char) : Bool × Subscriber :=
  s.bufWrite [c]

/-- Go `(*bufio.Writer).Flush`: the buffered bytes are written to the connection; a
failing write makes the error of the writer sticky. -/
def Subscriber.bufFlush (s : Subscriber) : Bool × Subscriber :=
  if s.werr then (true, s)
  else if s.buf = [] then (false, s)
  else if s.conn.broken then (true, { s with werr := true })
  else (false, { s with conn := { s.conn with wire := s.conn.wire ++ s.buf }, buf := [] })

/-- Go `(*json.Encoder).Encode(v)`: the value is marshalled, a line feed is appended
and the bytes are written to the underlying writer. -/
def Subscriber.encode {R : Type} (formatFloat : R → Option (List Char)) (s : Subscriber)
    (sample : Sample R) : Bool × Subscriber :=
  match marshal formatFloat sample with
  | none => (true, s)
  | some payload => s.bufWrite (payload ++ [LF])

/-- Go `(*Subscriber).Send`:
```
if err := s.enc.Encode(sample); err != nil { return err }
if err := s.w.WriteByte(0); err != nil { return err }
if err := s.w.Flush(); err != nil { return err }
return nil
```
The first component of the result tells whether an error was returned. -/
def Subscriber.Send {R : Type} (formatFloat : R → Option (List Char)) (s : Subscriber)
    (sample : Sample R) : Bool × Subscriber :=
  let r1 := s.encode formatFloat sample
  if r1.1 then r1
  else
    let r2 := r1.2.bufWriteByte NUL
    if r2.1 then r2 else r2.2.bufFlush

/-- Go `NewSubscriber(conn)` at the level of bytes: an empty writer on `conn`. -/
def Subscriber.new (conn : Conn) : Subscriber := { conn := conn, buf := [], werr := false }

/-- Successive sends of the samples to one subscriber; `none` as soon as one fails. -/
def sendAll {R : Type} (formatFloat : R → Option (List Char)) :
    Subscriber → List (Sample R) → Option Subscriber
  | s, [] => some s
  | s, x :: xs =>
    let r := s.Send formatFloat x
    if r.1 then none else sendAll formatFloat r.2 xs

/-- The reader's side: the stream cut at each `NUL`, giving the records that are
terminated by one (`cur` is the record being read, in reverse). -/
def recordsAux : List Char → List Char → List (List Char)
  | _, [] => []
  | cur, c :: cs => if c = NUL then cur.reverse :: recordsAux [] cs else recordsAux (c :: cur) cs

/-- The records of a stream, split on the delimiter `NUL`. -/
def records (stream : List Char) : List (List Char) := recordsAux [] stream

/-- A `float64` given by the text `encoding/json` writes for it. -/
def formatLiteral (text : String) : Option (List Char) := some text.toList

/-- The sample `Sample{Timestamp: 1700000000, Value: 12.5}`. -/
def sample12 : Sample String := ⟨1700000000, "12.5"⟩

/-- The sample `Sample{Timestamp: 1700000001, Value: -3.5}`. -/
def sample13 : Sample String := ⟨1700000001, "-3.5"⟩

/-- The subscriber after `sample12` and `sample13` were sent on a new connection. -/
def sentTwo : Subscriber :=
  (sendAll formatLiteral (Subscriber.new ⟨[], false⟩) [sample12, sample13]).get rfl

/-! ## Linked paths -/

theorem lastFrom_mem (a : Nat) (ps : List Nat) : lastFrom a ps ∈ a :: ps := by
  induction ps generalizing a with
  | nil => simp [lastFrom]
  | cons p ps ih =>
    have := ih p
    simp only [lastFrom]
    exact List.mem_cons_of_mem _ this

theorem lastFrom_append_cons (a : Nat) (xs : List Nat) (e : Nat) (ys : List Nat) :
    lastFrom a (xs ++ e :: ys) = lastFrom e ys := by
  induction xs generalizing a with
  | nil => simp [lastFrom]
  | cons x xs ih => simpa [lastFrom] using ih x

theorem Linked.frame {m m' : Nat → Element} {a b : Nat} {ps : List Nat}
    (h : Linked m a ps b)
    (hn : ∀ q ∈ a :: ps, (m' q).next = (m q).next)
    (hp : ∀ q ∈ ps ++ [b], (m' q).prev = (m q).prev) : Linked m' a ps b := by
  induction ps generalizing a with
  | nil =>
    obtain ⟨h1, h2⟩ := h
    exact ⟨by rw [hn a (by simp), h1], by rw [hp b (by simp), h2]⟩
  | cons p ps ih =>
    obtain ⟨h1, h2, h3⟩ := h
    refine ⟨by rw [hn a (by simp), h1], by rw [hp p (by simp), h2], ?_⟩
    exact ih h3 (fun q hq => hn q (List.mem_cons_of_mem _ hq))
      (fun q hq => hp q (by simp at hq ⊢; tauto))

theorem Linked.next_head {m : Nat → Element} {a b : Nat} {ps : List Nat}
    (h : Linked m a ps b) : (m a).next = some (ps.headD b) := by
  cases ps with
  | nil => exact h.1
  | cons p ps => exact h.1

theorem Linked.prev_last {m : Nat → Element} {a b : Nat} {ps : List Nat}
    (h : Linked m a ps b) : (m b).prev = some (lastFrom a ps) := by
  induction ps generalizing a with
  | nil => exact h.2
  | cons p ps ih => exact ih h.2.2

theorem Linked.next_last {m : Nat → Element} {a b : Nat} {ps : List Nat}
    (h : Linked m a ps b) : (m (lastFrom a ps)).next = some b := by
  induction ps generalizing a with
  | nil => exact h.1
  | cons p ps ih => exact ih h.2.2

/-- In a linked path the cell `e` in the middle points back to the end of what
precedes it and forward to the start of what follows. -/
theorem Linked.middle {m : Nat → Element} {a b e : Nat} {xs ys : List Nat}
    (h : Linked m a (xs ++ e :: ys) b) :
    (m e).prev = some (lastFrom a xs) ∧ (m e).next = some (ys.headD b) := by
  induction xs generalizing a with
  | nil =>
    obtain ⟨_, h2, h3⟩ := h
    exact ⟨h2, h3.next_head⟩
  | cons x xs ih => exact ih h.2.2

/-- Appending a new cell `e` at the end of a linked path. -/
theorem Linked.snoc {m m' : Nat → Element} {a b e : Nat} {ps : List Nat}
    (h : Linked m a ps b) (ha : a ∉ ps) (hnd : ps.Nodup)
    (he1 : (m' e).next = some b) (he2 : (m' e).prev = some (lastFrom a ps))
    (hl : (m' (lastFrom a ps)).next = some e) (hb : (m' b).prev = some e)
    (hn : ∀ q ∈ a :: ps, q ≠ lastFrom a ps → (m' q).next = (m q).next)
    (hp : ∀ q ∈ ps, (m' q).prev = (m q).prev) :
    Linked m' a (ps ++ [e]) b := by
  induction ps generalizing a with
  | nil => exact ⟨hl, he2, he1, hb⟩
  | cons p ps ih =>
    obtain ⟨h1, h2, h3⟩ := h
    simp only [List.mem_cons, not_or] at ha
    have hpn := (List.nodup_cons.mp hnd)
    have hne : a ≠ lastFrom p ps := by
      intro hc
      have := lastFrom_mem p ps
      rw [← hc] at this
      simp only [List.mem_cons] at this
      tauto
    refine ⟨?_, ?_, ?_⟩
    · rw [hn a (by simp) hne, h1]
    · rw [hp p (by simp), h2]
    · exact ih h3 hpn.1 hpn.2 he2 hl
        (fun q hq hq' => hn q (List.mem_cons_of_mem _ hq) hq')
        (fun q hq => hp q (List.mem_cons_of_mem _ hq))

/-- Unlinking the cell `e` from the middle of a linked path. -/
theorem Linked.unlink {m m' : Nat → Element} {a b e : Nat} {xs ys : List Nat}
    (h : Linked m a (xs ++ e :: ys) b) (ha : a ∉ xs ++ e :: ys) (hb : b ∉ xs ++ e :: ys)
    (hnd : (xs ++ e :: ys).Nodup)
    (hx : (m' (lastFrom a xs)).next = some (ys.headD b))
    (hy : (m' (ys.headD b)).prev = some (lastFrom a xs))
    (hn : ∀ q ∈ a :: (xs ++ ys), q ≠ lastFrom a xs → (m' q).next = (m q).next)
    (hp : ∀ q ∈ xs ++ ys ++ [b], q ≠ ys.headD b → (m' q).prev = (m q).prev) :
    Linked m' a (xs ++ ys) b := by
  induction xs generalizing a with
  | nil =>
    simp only [List.nil_append, lastFrom] at *
    obtain ⟨_, _, h3⟩ := h
    cases ys with
    | nil => exact ⟨hx, hy⟩
    | cons y ys =>
      obtain ⟨_, _, h6⟩ := h3
      simp only [List.headD_cons] at hx hy hn hp
      refine ⟨hx, hy, ?_⟩
      have hnd2 : (y :: ys).Nodup := (List.nodup_cons.mp hnd).2
      have hy1 : y ∉ ys := (List.nodup_cons.mp hnd2).1
      apply h6.frame
      · intro q hq
        apply hn q (List.mem_cons_of_mem _ hq)
        rintro rfl
        exact ha (List.mem_cons_of_mem _ hq)
      · intro q hq
        apply hp q (by simp only [List.cons_append]; exact List.mem_cons_of_mem _ hq)
        rintro rfl
        simp only [List.mem_append, List.mem_singleton] at hq
        rcases hq with hq | hq
        · exact hy1 hq
        · apply hb
          rw [← hq]
          simp
  | cons x xs ih =>
    obtain ⟨h1, h2, h3⟩ := h
    simp only [List.cons_append, lastFrom] at *
    have hnd2 := List.nodup_cons.mp hnd
    have hax : a ≠ lastFrom x xs := by
      intro hc
      have := lastFrom_mem x xs
      rw [← hc] at this
      apply ha
      simp only [List.mem_cons, List.mem_append] at this ⊢
      tauto
    have hxy : x ≠ ys.headD b := by
      intro hc
      cases ys with
      | nil =>
        simp only [List.headD_nil] at hc
        apply hb
        simp [hc]
      | cons y ys =>
        simp only [List.headD_cons] at hc
        apply hnd2.1
        simp [hc]
    refine ⟨?_, ?_, ?_⟩
    · rw [hn a (by simp) hax, h1]
    · rw [hp x (by simp) hxy, h2]
    · apply ih h3 hnd2.1 _ hnd2.2 hx hy
      · intro q hq hq'
        simp only [List.mem_cons] at hq
        apply hn q _ hq'
        simp only [List.mem_cons, List.mem_append] at hq ⊢
        tauto
      · intro q hq hq'
        apply hp q _ hq'
        simp only [List.mem_cons, List.mem_append, List.mem_singleton] at hq ⊢
        tauto
      · intro hc
        apply hb
        exact List.mem_cons_of_mem _ hc

/-! ## The list operations on a well-formed list -/

section fields
variable (l : GoList) (p q : Nat)

@[simp] theorem GoList.setNext_next (v : Option Nat) :
    ((l.setNext p v).mem q).next = if q = p then v else (l.mem q).next := by
  simp only [GoList.setNext, GoList.modify]; split <;> rfl
@[simp] theorem GoList.setNext_prev (v : Option Nat) :
    ((l.setNext p v).mem q).prev = (l.mem q).prev := by
  simp only [GoList.setNext, GoList.modify]; split <;> rfl
@[simp] theorem GoList.setNext_list (v : Option Nat) :
    ((l.setNext p v).mem q).list = (l.mem q).list := by
  simp only [GoList.setNext, GoList.modify]; split <;> rfl
@[simp] theorem GoList.setNext_Value (v : Option Nat) :
    ((l.setNext p v).mem q).Value = (l.mem q).Value := by
  simp only [GoList.setNext, GoList.modify]; split <;> rfl
@[simp] theorem GoList.setNext_len (v : Option Nat) : (l.setNext p v).len = l.len := rfl
@[simp] theorem GoList.setNext_top (v : Option Nat) : (l.setNext p v).top = l.top := rfl

@[simp] theorem GoList.setPrev_next (v : Option Nat) :
    ((l.setPrev p v).mem q).next = (l.mem q).next := by
  simp only [GoList.setPrev, GoList.modify]; split <;> rfl
@[simp] theorem GoList.setPrev_prev (v : Option Nat) :
    ((l.setPrev p v).mem q).prev = if q = p then v else (l.mem q).prev := by
  simp only [GoList.setPrev, GoList.modify]; split <;> rfl
@[simp] theorem GoList.setPrev_list (v : Option Nat) :
    ((l.setPrev p v).mem q).list = (l.mem q).list := by
  simp only [GoList.setPrev, GoList.modify]; split <;> rfl
@[simp] theorem GoList.setPrev_Value (v : Option Nat) :
    ((l.setPrev p v).mem q).Value = (l.mem q).Value := by
  simp only [GoList.setPrev, GoList.modify]; split <;> rfl
@[simp] theorem GoList.setPrev_len (v : Option Nat) : (l.setPrev p v).len = l.len := rfl
@[simp] theorem GoList.setPrev_top (v : Option Nat) : (l.setPrev p v).top = l.top := rfl

@[simp] theorem GoList.setList_next (v : Bool) :
    ((l.setList p v).mem q).next = (l.mem q).next := by
  simp only [GoList.setList, GoList.modify]; split <;> rfl
@[simp] theorem GoList.setList_prev (v : Bool) :
    ((l.setList p v).mem q).prev = (l.mem q).prev := by
  simp only [GoList.setList, GoList.modify]; split <;> rfl
@[simp] theorem GoList.setList_list (v : Bool) :
    ((l.setList p v).mem q).list = if q = p then v else (l.mem q).list := by
  simp only [GoList.setList, GoList.modify]; split <;> rfl
@[simp] theorem GoList.setList_Value (v : Bool) :
    ((l.setList p v).mem q).Value = (l.mem q).Value := by
  simp only [GoList.setList, GoList.modify]; split <;> rfl
@[simp] theorem GoList.setList_len (v : Bool) : (l.setList p v).len = l.len := rfl
@[simp] theorem GoList.setList_top (v : Bool) : (l.setList p v).top = l.top := rfl

@[simp] theorem GoList.alloc_next (v : Nat) :
    ((l.alloc v).mem q).next = if q = l.top then none else (l.mem q).next := by
  simp only [GoList.alloc, GoList.modify]; split <;> rfl
@[simp] theorem GoList.alloc_prev (v : Nat) :
    ((l.alloc v).mem q).prev = if q = l.top then none else (l.mem q).prev := by
  simp only [GoList.alloc, GoList.modify]; split <;> rfl
@[simp] theorem GoList.alloc_list (v : Nat) :
    ((l.alloc v).mem q).list = if q = l.top then false else (l.mem q).list := by
  simp only [GoList.alloc, GoList.modify]; split <;> rfl
@[simp] theorem GoList.alloc_Value (v : Nat) :
    ((l.alloc v).mem q).Value = if q = l.top then v else (l.mem q).Value := by
  simp only [GoList.alloc, GoList.modify]; split <;> rfl
@[simp] theorem GoList.alloc_len (v : Nat) : (l.alloc v).len = l.len := rfl
@[simp] theorem GoList.alloc_top (v : Nat) : (l.alloc v).top = l.top + 1 := rfl

end fields

theorem IsList.new : IsList GoList.New [] := by
  refine ⟨⟨rfl, rfl⟩, List.nodup_nil, by simp, by simp, by simp, by decide, rfl⟩

theorem IsList.last_ne_top {l : GoList} {ps : List Nat} (h : IsList l ps) :
    lastFrom rootAddr ps ≠ l.top := by
  intro hc
  have hm := lastFrom_mem rootAddr ps
  rw [hc] at hm
  rcases List.mem_cons.mp hm with h0 | h1
  · have := h.top
    rw [h0] at this
    exact absurd this (by simp [rootAddr])
  · exact absurd (h.below _ h1) (lt_irrefl _)

theorem IsList.pushBack {l : GoList} {ps : List Nat} (h : IsList l ps) (v : Nat) :
    ∃ l', l.PushBack v = some (l.top, l') ∧ IsList l' (ps ++ [l.top]) ∧
      (l'.mem l.top).Value = v ∧ ∀ p ∈ ps, (l'.mem p).Value = (l.mem p).Value := by
  have hlast := h.linked.prev_last
  have hnl := h.linked.next_last
  have hhead := h.linked.next_head
  have hne := h.last_ne_top
  have htop : l.top ≠ rootAddr := by
    have := h.top
    simp only [rootAddr]
    omega
  have hfresh : l.top ∉ ps := fun hc => absurd (h.below _ hc) (lt_irrefl _)
  simp only [GoList.PushBack, GoList.lazyInit, hhead, GoList.insertValue, GoList.insert]
  simp [hlast, hnl, hne, htop, htop.symm, hne.symm]
  refine ⟨?_, fun p hp hpt => absurd (hpt ▸ hp) hfresh⟩
  have hroot := h.root
  refine ⟨?_, ?_, ?_, ?_, ?_, ?_, ?_⟩
  · apply h.linked.snoc h.root h.nodup
    · simp [hne.symm]
    · simp [htop]
    · simp [hne]
    · simp
    · intro q hq hq'
      have hqt : q ≠ l.top := by
        rintro rfl
        rcases List.mem_cons.mp hq with h0 | h1
        · exact htop h0
        · exact hfresh h1
      simp [hq', hqt]
    · intro q hq
      have hqt : q ≠ l.top := fun hc => hfresh (hc ▸ hq)
      have hq0 : q ≠ rootAddr := fun hc => hroot (hc ▸ hq)
      simp [hqt, hq0]
  · exact List.Nodup.append h.nodup (List.nodup_singleton _) (by simpa using hfresh)
  · simp only [List.mem_append, List.mem_singleton, not_or]
    exact ⟨hroot, htop.symm⟩
  · intro p hp
    simp only [List.mem_append, List.mem_singleton] at hp
    rcases hp with hp | hp
    · have hqt : p ≠ l.top := fun hc => hfresh (hc ▸ hp)
      simpa [hqt] using h.owned p hp
    · simp [hp]
  · intro p hp
    simp only [List.mem_append, List.mem_singleton] at hp
    rcases hp with hp | hp
    · exact Nat.lt_succ_of_lt (h.below p hp)
    · simp [hp]
  · simp
  · simp [h.len]

theorem headD_mem (ys : List Nat) (b : Nat) : ys.headD b ∈ ys ++ [b] := by
  cases ys <;> simp

theorem IsList.remove {l : GoList} {xs ys : List Nat} {e : Nat}
    (h : IsList l (xs ++ e :: ys)) :
    ∃ l', l.Remove e = some l' ∧ IsList l' (xs ++ ys) ∧ (l'.mem e).list = false ∧
      (∀ q, (l'.mem q).Value = (l.mem q).Value) ∧ l'.top = l.top := by
  obtain ⟨hprev, hnext⟩ := h.linked.middle
  have hown : (l.mem e).list = true := h.owned e (by simp)
  have hnd := h.nodup
  have hroot := h.root
  have he0 : e ≠ rootAddr := fun hc => hroot (by simp [hc])
  have hexs : e ∉ xs := fun hc => by
    have := List.disjoint_of_nodup_append hnd hc
    exact this (by simp)
  have heys : e ∉ ys := fun hc => by
    have := (List.nodup_append.mp hnd).2.1
    exact (List.nodup_cons.mp this).1 hc
  have hex : e ≠ lastFrom rootAddr xs := by
    intro hc
    have hm := lastFrom_mem rootAddr xs
    rw [← hc] at hm
    rcases List.mem_cons.mp hm with h0 | h1
    · exact he0 h0
    · exact hexs h1
  have hey : e ≠ ys.headD rootAddr := by
    intro hc
    have hm := headD_mem ys rootAddr
    rw [← hc] at hm
    simp only [List.mem_append, List.mem_singleton] at hm
    rcases hm with h1 | h0
    · exact heys h1
    · exact he0 h0
  have hxs0 : ∀ q ∈ xs ++ ys, q ≠ e := by
    intro q hq hc
    rw [hc] at hq
    rcases List.mem_append.mp hq with h1 | h1
    · exact hexs h1
    · exact heys h1
  have hsub : ∀ q ∈ xs ++ ys, q ∈ xs ++ e :: ys := by
    intro q hq
    simp only [List.mem_append, List.mem_cons] at hq ⊢
    tauto
  simp only [GoList.Remove, hown, if_true, GoList.remove, hprev]
  simp only [Option.bind_eq_bind, Option.some_bind, GoList.setNext_next, if_neg hex, hnext,
    GoList.setNext_prev, hprev, Option.pure_def, Option.some.injEq, exists_eq_left']
  refine ⟨⟨?_, ?_, ?_, ?_, ?_, ?_, ?_⟩, ?_, ?_, ?_⟩
  · apply h.linked.unlink h.root h.root h.nodup
    · simp [hex.symm]
    · have hey2 := hey.symm
      simp only [List.headD_eq_head?_getD] at hey2
      simp [hey2]
    · intro q hq hq'
      have hqe : q ≠ e := by
        rcases List.mem_cons.mp hq with h0 | h1
        · exact h0 ▸ he0.symm
        · exact hxs0 q h1
      simp [hqe, hq']
    · intro q hq hq'
      have hqe : q ≠ e := by
        rcases List.mem_append.mp hq with h1 | h0
        · exact hxs0 q h1
        · exact (List.mem_singleton.mp h0) ▸ he0.symm
      simp only [List.headD_eq_head?_getD] at hq'
      simp [hqe, hq']
  · have := h.nodup
    rw [List.nodup_append] at this ⊢
    refine ⟨this.1, (List.nodup_cons.mp this.2.1).2, ?_⟩
    intro a ha1 ha2
    exact this.2.2 ha1 (List.mem_cons_of_mem _ ha2)
  · exact fun hc => h.root (hsub _ hc)
  · intro p hp
    simpa [hxs0 p hp] using h.owned p (hsub p hp)
  · intro p hp
    exact h.below p (hsub p hp)
  · exact h.top
  · simp [h.len]
    omega
  · simp
  · intro q
    simp
  · rfl

theorem IsList.next_eq {l : GoList} {xs ys : List Nat} {e : Nat}
    (h : IsList l (xs ++ e :: ys)) : l.Next e = ys.head? := by
  obtain ⟨_, hnext⟩ := h.linked.middle
  have hown : (l.mem e).list = true := h.owned e (by simp)
  have hroot := h.root
  cases ys with
  | nil => simp [GoList.Next, hnext]
  | cons y ys =>
    have hy : y ≠ rootAddr := fun hc => hroot (by simp [hc])
    simp [GoList.Next, hnext, hown, hy]

theorem GoList.next_of_detached (l : GoList) (e : Nat) (h : (l.mem e).list = false) :
    l.Next e = none := by
  simp [GoList.Next, h]

theorem IsList.front_eq {l : GoList} {ps : List Nat} (h : IsList l ps) :
    l.Front = ps.head? := by
  have hh := h.linked.next_head
  have hlen := h.len
  cases ps with
  | nil => simp [GoList.Front, hlen]
  | cons p ps =>
    have : l.len ≠ 0 := by
      rw [hlen]
      simp only [List.length_cons]
      omega
    simp [GoList.Front, this, hh]

theorem IsList.walk_eq {l : GoList} {xs ys : List Nat} (h : IsList l (xs ++ ys)) (n : Nat)
    (hn : ys.length ≤ n) : l.walk n ys.head? = ys := by
  induction ys generalizing xs n with
  | nil => cases n <;> simp [GoList.walk]
  | cons y ys ih =>
    cases n with
    | zero => simp at hn
    | succ n =>
      have h2 : IsList l ((xs ++ [y]) ++ ys) := by simpa using h
      simp only [List.head?_cons, GoList.walk, h.next_eq]
      rw [ih h2 n (by simpa using hn)]

theorem IsList.addrs_eq {l : GoList} {ps : List Nat} (h : IsList l ps) : l.addrs = ps := by
  have h2 : IsList l ([] ++ ps) := by simpa using h
  have := h2.walk_eq l.len.toNat (by simp [h.len])
  simpa [GoList.addrs, h.front_eq] using this

theorem IsList.values_eq {l : GoList} {ps : List Nat} (h : IsList l ps) :
    l.values = ps.map (fun p => (l.mem p).Value) := by
  simp [GoList.values, h.addrs_eq]

/-! ## One pass of `updateSubscribers` -/

theorem updateLoop_none {R : Type} (fails : Nat → Bool) (sample : Sample R) (n : Nat)
    (w : World R) : updateLoop fails sample n none w = some w := by
  cases n <;> rfl

/-- While every send succeeds the loop walks on and only the record of sends grows. -/
theorem updateLoop_all_ok {R : Type} (fails : Nat → Bool) (sample : Sample R) (l : GoList)
    (ys xs : List Nat) (w : World R) (n : Nat) (hw : w.subs = l) (h : IsList l (xs ++ ys))
    (hok : ∀ p ∈ ys, fails (l.mem p).Value = false) (hn : ys.length ≤ n) :
    updateLoop fails sample n ys.head? w =
      some { w with sends := w.sends ++ ys.map (fun p => ⟨(l.mem p).Value, sample, false⟩) } := by
  induction ys generalizing xs w n with
  | nil => simp [updateLoop_none]
  | cons y ys ih =>
    cases n with
    | zero => simp at hn
    | succ n =>
      have h2 : IsList l ((xs ++ [y]) ++ ys) := by simpa using h
      have hy : fails (l.mem y).Value = false := hok y (by simp)
      simp only [List.head?_cons, updateLoop, hw, hy, Bool.false_eq_true, if_false, h.next_eq]
      rw [ih (xs ++ [y]) _ n rfl h2 (fun p hp => hok p (List.mem_cons_of_mem _ hp))
        (by simpa using hn)]
      simp

/-- The loop up to the first failing send: the sends before it succeed, the failing
element is removed, and `e.Next()` on the removed element ends the loop. -/
theorem updateLoop_first_fail {R : Type} (fails : Nat → Bool) (sample : Sample R) (l l' : GoList)
    (pre xs post : List Nat) (e : Nat) (w : World R) (n : Nat) (hw : w.subs = l)
    (h : IsList l (xs ++ pre ++ e :: post))
    (hok : ∀ p ∈ pre, fails (l.mem p).Value = false) (hbad : fails (l.mem e).Value = true)
    (hrm : l.Remove e = some l') (hdet : (l'.mem e).list = false) (hn : pre.length + 1 ≤ n) :
    updateLoop fails sample n (pre ++ [e]).head? w =
      some { w with
        sends := w.sends ++ pre.map (fun p => ⟨(l.mem p).Value, sample, false⟩) ++
          [⟨(l.mem e).Value, sample, true⟩],
        subs := l' } := by
  induction pre generalizing xs w n with
  | nil =>
    cases n with
    | zero => simp at hn
    | succ n =>
      simp only [List.nil_append, List.head?_cons, updateLoop, hw, hbad, if_true, hrm,
        Option.map_some', l'.next_of_detached e hdet, updateLoop_none]
      simp
  | cons y ys ih =>
    cases n with
    | zero => simp at hn
    | succ n =>
      have h1 : IsList l (xs ++ y :: (ys ++ e :: post)) := by simpa using h
      have h2 : IsList l ((xs ++ [y]) ++ ys ++ e :: post) := by simpa using h
      have hy : fails (l.mem y).Value = false := hok y (by simp)
      have hnx : l.Next y = (ys ++ [e]).head? := by
        rw [h1.next_eq]
        cases ys <;> simp
      simp only [List.cons_append, List.head?_cons, updateLoop, hw, hy, Bool.false_eq_true,
        if_false, hnx]
      rw [ih (xs ++ [y]) _ n rfl h2 (fun p hp => hok p (List.mem_cons_of_mem _ hp))
        (by simpa using hn)]
      simp

theorem updateLoop_mono {R : Type} (fails : Nat → Bool) (sample : Sample R) (n : Nat)
    (e : Option Nat) (w r : World R) (h : updateLoop fails sample n e w = some r) (m : Nat)
    (hm : n ≤ m) : updateLoop fails sample m e w = some r := by
  induction n generalizing e w m with
  | zero =>
    cases e with
    | none => rw [updateLoop_none] at h ⊢; exact h
    | some e => simp [updateLoop] at h
  | succ n ih =>
    cases e with
    | none => rw [updateLoop_none] at h ⊢; exact h
    | some e =>
      cases m with
      | zero => omega
      | succ m =>
        simp only [updateLoop] at h ⊢
        split at h
        · exact absurd h (by simp)
        · exact ih _ _ h m (by omega)

theorem first_fail_split (f : Nat → Bool) (ps : List Nat) :
    (∀ p ∈ ps, f p = false) ∨
      ∃ pre e post, ps = pre ++ e :: post ∧ (∀ p ∈ pre, f p = false) ∧ f e = true := by
  induction ps with
  | nil => left; simp
  | cons p ps ih =>
    cases hp : f p with
    | true => exact Or.inr ⟨[], p, ps, rfl, by simp, hp⟩
    | false =>
      rcases ih with h | ⟨pre, e, post, h1, h2, h3⟩
      · left
        intro q hq
        rcases List.mem_cons.mp hq with rfl | hq
        · exact hp
        · exact h q hq
      · right
        refine ⟨p :: pre, e, post, by simp [h1], ?_, h3⟩
        intro q hq
        rcases List.mem_cons.mp hq with rfl | hq
        · exact hp
        · exact h2 q hq

/-- A pass in which no send fails. -/
theorem pass_all_ok {R : Type} (w : World R) (ps : List Nat) (h : IsList w.subs ps)
    (fails : Nat → Bool) (sample : Sample R) (n : Nat) (hn : ps.length ≤ n)
    (hok : ∀ p ∈ ps, fails (w.subs.mem p).Value = false) :
    updateSubscribers n fails sample w =
      some { w with
        sends := w.sends ++ ps.map (fun p => ⟨(w.subs.mem p).Value, sample, false⟩) } := by
  have h2 : IsList w.subs ([] ++ ps) := by simpa using h
  have := updateLoop_all_ok fails sample w.subs ps [] w n rfl h2 hok hn
  simpa [updateSubscribers, h.front_eq] using this

/-- A pass in which the send to the element `e` is the first to fail. -/
theorem pass_first_fail {R : Type} (w : World R) (pre post : List Nat) (e : Nat)
    (h : IsList w.subs (pre ++ e :: post))
    (fails : Nat → Bool) (sample : Sample R) (n : Nat) (hn : pre.length + 1 ≤ n)
    (hok : ∀ p ∈ pre, fails (w.subs.mem p).Value = false)
    (hbad : fails (w.subs.mem e).Value = true) :
    ∃ l', updateSubscribers n fails sample w =
      some { w with
        sends := w.sends ++ pre.map (fun p => ⟨(w.subs.mem p).Value, sample, false⟩) ++
          [⟨(w.subs.mem e).Value, sample, true⟩],
        subs := l' } ∧
      IsList l' (pre ++ post) ∧ (∀ q, (l'.mem q).Value = (w.subs.mem q).Value) ∧
      l'.top = w.subs.top := by
  obtain ⟨l', hrm, hl', hdet, hval, htop⟩ := h.remove
  refine ⟨l', ?_, hl', hval, htop⟩
  have h2 : IsList w.subs ([] ++ pre ++ e :: post) := by simpa using h
  have := updateLoop_first_fail fails sample w.subs l' pre [] post e w n rfl h2 hok hbad hrm
    hdet hn
  have hf : w.subs.Front = (pre ++ [e]).head? := by
    rw [h.front_eq]
    cases pre <;> simp
  simpa [updateSubscribers, hf] using this

/-- What one pass does to a well-formed registry, given enough fuel: either no send
fails, the list is untouched and every element was sent to; or the pass ends at the
first failing element, which is the only one removed. -/
theorem pass_result {R : Type} (w : World R) (ps : List Nat) (h : IsList w.subs ps)
    (fails : Nat → Bool) (sample : Sample R) (n : Nat) (hn : ps.length ≤ n) :
    ∃ w1, updateSubscribers n fails sample w = some w1 ∧ w1.conns = w.conns ∧
      w1.closed = w.closed ∧
      (((∀ p ∈ ps, fails (w.subs.mem p).Value = false) ∧ w1.subs = w.subs ∧
          w1.sends = w.sends ++ ps.map (fun p => ⟨(w.subs.mem p).Value, sample, false⟩)) ∨
        ∃ pre e post, ps = pre ++ e :: post ∧
          (∀ p ∈ pre, fails (w.subs.mem p).Value = false) ∧
          fails (w.subs.mem e).Value = true ∧ IsList w1.subs (pre ++ post) ∧
          (∀ q, (w1.subs.mem q).Value = (w.subs.mem q).Value) ∧ w1.subs.top = w.subs.top ∧
          w1.sends = w.sends ++ pre.map (fun p => ⟨(w.subs.mem p).Value, sample, false⟩) ++
            [⟨(w.subs.mem e).Value, sample, true⟩]) := by
  rcases first_fail_split (fun p => fails (w.subs.mem p).Value) ps with hok | ⟨pre, e, post, hps, hok, hbad⟩
  · exact ⟨_, pass_all_ok w ps h fails sample n hn hok, rfl, rfl, Or.inl ⟨hok, rfl, rfl⟩⟩
  · subst hps
    have hn2 : pre.length + 1 ≤ n := by
      simp only [List.length_append, List.length_cons] at hn
      omega
    obtain ⟨l', h1, h2, h3, h4⟩ := pass_first_fail w pre post e h fails sample n hn2 hok hbad
    exact ⟨_, h1, rfl, rfl, Or.inr ⟨pre, e, post, rfl, hok, hbad, h2, h3, h4, rfl⟩⟩

/-- The same for any fuel with which the pass returns. -/
theorem pass_cases {R : Type} (w w1 : World R) (ps : List Nat) (h : IsList w.subs ps)
    (fails : Nat → Bool) (sample : Sample R) (m : Nat)
    (hr : updateSubscribers m fails sample w = some w1) :
    w1.conns = w.conns ∧ w1.closed = w.closed ∧
      (((∀ p ∈ ps, fails (w.subs.mem p).Value = false) ∧ w1.subs = w.subs ∧
          w1.sends = w.sends ++ ps.map (fun p => ⟨(w.subs.mem p).Value, sample, false⟩)) ∨
        ∃ pre e post, ps = pre ++ e :: post ∧
          (∀ p ∈ pre, fails (w.subs.mem p).Value = false) ∧
          fails (w.subs.mem e).Value = true ∧ IsList w1.subs (pre ++ post) ∧
          (∀ q, (w1.subs.mem q).Value = (w.subs.mem q).Value) ∧ w1.subs.top = w.subs.top ∧
          w1.sends = w.sends ++ pre.map (fun p => ⟨(w.subs.mem p).Value, sample, false⟩) ++
            [⟨(w.subs.mem e).Value, sample, true⟩]) := by
  obtain ⟨w2, h1, h2⟩ := pass_result w ps h fails sample (max m ps.length) (le_max_right _ _)
  have := updateLoop_mono fails sample m _ w w1 hr (max m ps.length) (le_max_left _ _)
  have heq : w2 = w1 := by
    have h3 : updateSubscribers (max m ps.length) fails sample w = some w1 := this
    rw [h1] at h3
    exact Option.some.inj h3
  rw [← heq]
  exact h2

/-! ## The invariant of the registry -/

theorem add_spec {R : Type} (conn : Nat) (w : World R) (ps : List Nat)
    (h : IsList w.subs ps) :
    ∃ l', addSubscriber conn w = some { w with subs := l', conns := w.conns ++ [conn] } ∧
      IsList l' (ps ++ [w.subs.top]) ∧ (l'.mem w.subs.top).Value = w.conns.length ∧
      ∀ p ∈ ps, (l'.mem p).Value = (w.subs.mem p).Value := by
  obtain ⟨l', h1, h2, h3, h4⟩ := h.pushBack w.conns.length
  refine ⟨l', ?_, h2, h3, h4⟩
  simp [addSubscriber, NewSubscriber, h1]

theorem WellFormed.registry_eq {R : Type} {w : World R} {ps : List Nat}
    (h : WellFormed w ps) : w.registry = ps.map (fun p => (w.subs.mem p).Value) :=
  h.1.values_eq

theorem Invariant.init (R : Type) : Invariant (World.init R) := by
  refine ⟨[], ⟨IsList.new, by simp, by simp⟩, by simp [World.init], by simp [World.init], ?_⟩
  simp [NoSendAfterFailure, World.init]

theorem map_congr_mem {α : Type} (f g : Nat → α) (ps : List Nat) (h : ∀ p ∈ ps, f p = g p) :
    ps.map f = ps.map g := List.map_congr_left h

theorem Invariant.add {R : Type} {w w1 : World R} (conn : Nat) (hw : Invariant w)
    (h : addSubscriber conn w = some w1) : Invariant w1 := by
  obtain ⟨ps, ⟨hl, hnd, hlt⟩, hs1, hs2, hs3⟩ := hw
  have hreg : w.registry = ps.map (fun p => (w.subs.mem p).Value) := hl.values_eq
  obtain ⟨l', h1, h2, h3, h4⟩ := add_spec conn w ps hl
  rw [h1] at h
  cases h
  have hmap : (ps ++ [w.subs.top]).map (fun p => (l'.mem p).Value) =
      ps.map (fun p => (w.subs.mem p).Value) ++ [w.conns.length] := by
    rw [List.map_append, map_congr_mem _ _ ps h4]
    simp [h3]
  have hnew : w.conns.length ∉ ps.map (fun p => (w.subs.mem p).Value) := by
    intro hc
    obtain ⟨p, hp, hpe⟩ := List.mem_map.mp hc
    have := hlt p hp
    omega
  refine ⟨ps ++ [w.subs.top], ⟨h2, ?_, ?_⟩, ?_, ?_, hs3⟩
  · show ((ps ++ [w.subs.top]).map (fun p => (l'.mem p).Value)).Nodup
    rw [hmap]
    exact List.Nodup.append hnd (List.nodup_singleton _) (by simpa using hnew)
  · intro p hp
    show (l'.mem p).Value < (w.conns ++ [conn]).length
    rcases List.mem_append.mp hp with hp | hp
    · rw [h4 p hp]
      have := hlt p hp
      simp
      omega
    · rw [List.mem_singleton.mp hp, h3]
      simp
  · intro ev hev
    have := hs1 ev hev
    show ev.sub < (w.conns ++ [conn]).length
    simp
    omega
  · intro ev hev herr
    show ev.sub ∉ l'.values
    rw [h2.values_eq, hmap]
    have a1 := hs1 ev hev
    have a2 := hs2 ev hev herr
    rw [hreg] at a2
    simp only [List.mem_append, List.mem_singleton, not_or]
    exact ⟨a2, by omega⟩

theorem Invariant.update {R : Type} {w w1 : World R} (fuel : Nat) (fails : Nat → Bool)
    (sample : Sample R) (hw : Invariant w)
    (h : updateSubscribers fuel fails sample w = some w1) : Invariant w1 := by
  obtain ⟨ps, ⟨hl, hnd, hlt⟩, hs1, hs2, hs3⟩ := hw
  have hreg : w.registry = ps.map (fun p => (w.subs.mem p).Value) := hl.values_eq
  rw [hreg] at hs2
  obtain ⟨hc, _, hcase⟩ := pass_cases w w1 ps hl fails sample fuel h
  rcases hcase with ⟨hok, hsubs, hsends⟩ | ⟨pre, e, post, hps, hok, hbad, hl1, hval, _, hsends⟩
  · have hreg1 : w1.registry = ps.map (fun p => (w.subs.mem p).Value) := by
      show w1.subs.values = _
      rw [hsubs]
      exact hl.values_eq
    refine ⟨ps, ⟨by rw [hsubs]; exact hl, by rw [hsubs]; exact hnd,
      by rw [hsubs, hc]; exact hlt⟩, ?_, ?_, ?_⟩
    · intro ev hev
      rw [hc]
      rw [hsends] at hev
      rcases List.mem_append.mp hev with hev | hev
      · exact hs1 ev hev
      · obtain ⟨p, hp, rfl⟩ := List.mem_map.mp hev
        exact hlt p hp
    · intro ev hev herr
      rw [hreg1]
      rw [hsends] at hev
      rcases List.mem_append.mp hev with hev | hev
      · exact hs2 ev hev herr
      · obtain ⟨p, hp, rfl⟩ := List.mem_map.mp hev
        simp at herr
    · show List.Pairwise _ w1.sends
      rw [hsends, List.pairwise_append]
      refine ⟨hs3, ?_, ?_⟩
      · rw [List.pairwise_map]
        exact List.pairwise_of_forall (fun a b hab => by simp at hab)
      · intro a ha b hb herr
        obtain ⟨p, hp, rfl⟩ := List.mem_map.mp hb
        intro hc2
        apply hs2 a ha herr
        rw [← hc2]
        exact List.mem_map.mpr ⟨p, hp, rfl⟩
  · subst hps
    have hmap1 : (pre ++ post).map (fun p => (w1.subs.mem p).Value) =
        (pre ++ post).map (fun p => (w.subs.mem p).Value) :=
      List.map_congr_left (fun p _ => hval p)
    have hreg1 : w1.registry = (pre ++ post).map (fun p => (w.subs.mem p).Value) := by
      show w1.subs.values = _
      rw [hl1.values_eq, hmap1]
    have hndv : ((pre ++ e :: post).map (fun p => (w.subs.mem p).Value)).Nodup := hnd
    have hsubl : List.Sublist ((pre ++ post).map (fun p => (w.subs.mem p).Value))
        ((pre ++ e :: post).map (fun p => (w.subs.mem p).Value)) :=
      List.Sublist.map _ (List.Sublist.append (List.Sublist.refl _) (List.sublist_cons_self _ _))
    have he_out : (w.subs.mem e).Value ∉ (pre ++ post).map (fun p => (w.subs.mem p).Value) := by
      simp only [List.map_append, List.map_cons] at hndv
      have h1 := List.nodup_append.mp hndv
      have h2 := List.nodup_cons.mp h1.2.1
      intro hc2
      simp only [List.map_append, List.mem_append] at hc2
      rcases hc2 with hc2 | hc2
      · exact h1.2.2 hc2 (List.mem_cons_self _ _)
      · exact h2.1 hc2
    have hmem_old : ∀ p ∈ pre ++ post, (w.subs.mem p).Value ∈
        (pre ++ e :: post).map (fun p => (w.subs.mem p).Value) := by
      intro p hp
      apply List.mem_map.mpr
      refine ⟨p, ?_, rfl⟩
      simp only [List.mem_append, List.mem_cons] at hp ⊢
      tauto
    refine ⟨pre ++ post, ⟨hl1, ?_, ?_⟩, ?_, ?_, ?_⟩
    · show ((pre ++ post).map (fun p => (w1.subs.mem p).Value)).Nodup
      rw [hmap1]
      exact List.Nodup.sublist hsubl hndv
    · intro p hp
      rw [hval p, hc]
      apply hlt p
      simp only [List.mem_append, List.mem_cons] at hp ⊢
      tauto
    · intro ev hev
      rw [hc]
      rw [hsends] at hev
      simp only [List.mem_append, List.mem_map, List.mem_singleton] at hev
      rcases hev with (hev | ⟨p, hp, rfl⟩) | rfl
      · exact hs1 ev hev
      · exact hlt p (by simp [hp])
      · exact hlt e (by simp)
    · intro ev hev herr
      rw [hreg1]
      rw [hsends] at hev
      simp only [List.mem_append, List.mem_map, List.mem_singleton] at hev
      rcases hev with (hev | ⟨p, hp, rfl⟩) | rfl
      · exact fun hc2 => hs2 ev hev herr (hsubl.subset hc2)
      · simp at herr
      · exact he_out
    · show List.Pairwise _ w1.sends
      rw [hsends, List.append_assoc, List.pairwise_append]
      refine ⟨hs3, ?_, ?_⟩
      · rw [List.pairwise_append]
        refine ⟨?_, List.pairwise_singleton _ _, ?_⟩
        · rw [List.pairwise_map]
          exact List.pairwise_of_forall (fun a b hab => by simp at hab)
        · intro a ha b _ herr
          obtain ⟨p, _, rfl⟩ := List.mem_map.mp ha
          simp at herr
      · intro a ha b hb herr hc2
        apply hs2 a ha herr
        rw [← hc2]
        simp only [List.mem_append, List.mem_map, List.mem_singleton] at hb
        rcases hb with ⟨p, hp, rfl⟩ | rfl
        · exact List.mem_map.mpr ⟨p, by simp [hp], rfl⟩
        · exact List.mem_map.mpr ⟨e, by simp, rfl⟩

theorem Reachable.invariant {R : Type} {w : World R} (h : Reachable w) : Invariant w := by
  induction h with
  | init => exact Invariant.init R
  | add conn _ h ih => exact ih.add conn h
  | update fuel fails sample _ h ih => exact ih.update fuel fails sample h

/-! ## The pass in terms of the registered subscribers -/

theorem first_fail_unique {α : Type} (f : α → Bool) (pre pre1 post post1 : List α) (s s1 : α)
    (h : pre ++ s :: post = pre1 ++ s1 :: post1) (hok : ∀ x ∈ pre, f x = false)
    (hbad : f s = true) (hok1 : ∀ x ∈ pre1, f x = false) (hbad1 : f s1 = true) :
    pre = pre1 ∧ s = s1 ∧ post = post1 := by
  induction pre generalizing pre1 with
  | nil =>
    cases pre1 with
    | nil => simpa using h
    | cons y ys =>
      simp only [List.nil_append, List.cons_append, List.cons.injEq] at h
      have := hok1 y (by simp)
      rw [← h.1, hbad] at this
      exact absurd this (by simp)
  | cons x xs ih =>
    cases pre1 with
    | nil =>
      simp only [List.nil_append, List.cons_append, List.cons.injEq] at h
      have := hok x (by simp)
      rw [h.1, hbad1] at this
      exact absurd this (by simp)
    | cons y ys =>
      simp only [List.cons_append, List.cons.injEq] at h
      obtain ⟨h1, h2, h3⟩ := ih ys h.2 (fun z hz => hok z (List.mem_cons_of_mem _ hz))
        (fun z hz => hok1 z (List.mem_cons_of_mem _ hz))
      exact ⟨by rw [h.1, h1], h2, h3⟩

/-- One pass over the registry of a state satisfying the invariant, told in terms of
the registered subscribers. -/
theorem pass_registry {R : Type} (w : World R) (hw : Invariant w) (fails : Nat → Bool)
    (sample : Sample R) (n : Nat) (hn : w.registry.length ≤ n) :
    ∃ w1, updateSubscribers n fails sample w = some w1 ∧ w1.conns = w.conns ∧
      w1.closed = w.closed ∧
      (((∀ s ∈ w.registry, fails s = false) ∧ w1.registry = w.registry ∧
          w1.sends = w.sends ++ w.registry.map (fun s => ⟨s, sample, false⟩)) ∨
        ∃ pre s post, w.registry = pre ++ s :: post ∧ (∀ x ∈ pre, fails x = false) ∧
          fails s = true ∧ w1.registry = pre ++ post ∧
          w1.sends = w.sends ++ pre.map (fun x => ⟨x, sample, false⟩) ++ [⟨s, sample, true⟩]) := by
  obtain ⟨ps, ⟨hl, _, _⟩, _, _, _⟩ := hw
  have hreg : w.registry = ps.map (fun p => (w.subs.mem p).Value) := hl.values_eq
  have hn2 : ps.length ≤ n := by simpa [hreg] using hn
  obtain ⟨w1, h1, h2, h3, hcase⟩ := pass_result w ps hl fails sample n hn2
  refine ⟨w1, h1, h2, h3, ?_⟩
  rcases hcase with ⟨hok, hsubs, hsends⟩ | ⟨pre, e, post, hps, hok, hbad, hl1, hval, _, hsends⟩
  · left
    refine ⟨?_, ?_, ?_⟩
    · intro s hs
      rw [hreg] at hs
      obtain ⟨p, hp, rfl⟩ := List.mem_map.mp hs
      exact hok p hp
    · show w1.subs.values = w.subs.values
      rw [hsubs]
    · rw [hsends, hreg, List.map_map]
      rfl
  · right
    subst hps
    refine ⟨pre.map (fun p => (w.subs.mem p).Value), (w.subs.mem e).Value,
      post.map (fun p => (w.subs.mem p).Value), ?_, ?_, hbad, ?_, ?_⟩
    · rw [hreg]
      simp
    · intro x hx
      obtain ⟨p, hp, rfl⟩ := List.mem_map.mp hx
      exact hok p hp
    · show w1.subs.values = _
      rw [hl1.values_eq, List.map_congr_left (fun p _ => hval p)]
      simp
    · rw [hsends, List.map_map]
      rfl

/-! ## The registry: claims -/

theorem world1_reachable : Reachable world1 :=
  Reachable.add 7 Reachable.init (Option.some_get _).symm

theorem world2_reachable : Reachable world2 :=
  Reachable.add 8 world1_reachable (Option.some_get _).symm

theorem world3_reachable : Reachable world3 :=
  Reachable.add 9 world2_reachable (Option.some_get _).symm

theorem world4_reachable : Reachable world4 :=
  Reachable.update 3 (fun s => s == 1) sample0 world3_reachable (Option.some_get _).symm

/-- C10: the exact effect of one pass of `updateSubscribers` over a registry the program
can be in, with `container/list` embedded at the level of its elements.  With fuel for
one iteration per registered subscriber the pass returns (the loop terminates).  If no
send fails, every subscriber is sent the sample once, in registry order, and the
registry is unchanged.  If the first failing send is the one to `s`, with `pre` before
it and `post` after it in the registry, then the pass sends to `pre` and to `s`, in this
order, and to nobody in `post`; `s` is removed and `pre ++ post` stays registered in
the original order. -/
theorem updateSubscribers_stops_at_first_failure {R : Type} (w : World R) (hw : Reachable w)
    (fails : Nat → Bool) (sample : Sample R) (fuel : Nat) (hfuel : w.registry.length ≤ fuel) :
    ∃ w1, updateSubscribers fuel fails sample w = some w1 ∧
      ((∀ s ∈ w.registry, fails s = false) →
        w1.registry = w.registry ∧
        w1.sends = w.sends ++ w.registry.map (fun s => ⟨s, sample, false⟩)) ∧
      (∀ pre s post, w.registry = pre ++ s :: post → (∀ x ∈ pre, fails x = false) →
        fails s = true →
        w1.registry = pre ++ post ∧
        w1.sends = w.sends ++ pre.map (fun x => ⟨x, sample, false⟩) ++ [⟨s, sample, true⟩]) := by
  obtain ⟨w1, h1, _, _, hcase⟩ := pass_registry w hw.invariant fails sample fuel hfuel
  refine ⟨w1, h1, ?_, ?_⟩
  · intro hok
    rcases hcase with ⟨_, h2, h3⟩ | ⟨pre, s, post, hreg, _, hbad, _, _⟩
    · exact ⟨h2, h3⟩
    · have := hok s (by simp [hreg])
      rw [hbad] at this
      exact absurd this (by simp)
  · intro pre s post hreg hok hbad
    rcases hcase with ⟨hok1, _, _⟩ | ⟨pre1, s1, post1, hreg1, hok1, hbad1, h2, h3⟩
    · have := hok1 s (by simp [hreg])
      rw [hbad] at this
      exact absurd this (by simp)
    · rw [hreg] at hreg1
      obtain ⟨e1, e2, e3⟩ := first_fail_unique fails pre pre1 post post1 s s1 hreg1 hok hbad
        hok1 hbad1
      subst e1 e2 e3
      exact ⟨h2, h3⟩

theorem updateSubscribers_stops_at_first_failure_witness :
    Reachable world3 ∧ world3.registry.length ≤ 3 ∧
      ∃ w1, updateSubscribers 3 (fun s => s == 1) sample0 world3 = some w1 ∧
        ((∀ s ∈ world3.registry, (fun s => s == 1) s = false) →
          w1.registry = world3.registry ∧
          w1.sends = world3.sends ++ world3.registry.map (fun s => ⟨s, sample0, false⟩)) ∧
        (∀ pre s post, world3.registry = pre ++ s :: post →
          (∀ x ∈ pre, (fun s => s == 1) x = false) → (fun s => s == 1) s = true →
          w1.registry = pre ++ post ∧
          w1.sends = world3.sends ++ pre.map (fun x => ⟨x, sample0, false⟩) ++
            [⟨s, sample0, true⟩]) :=
  ⟨world3_reachable, by decide,
    updateSubscribers_stops_at_first_failure world3 world3_reachable (fun s => s == 1) sample0 3
      (by decide)⟩

/-- C4: in every state reached from the empty registry by calls of `addSubscriber` and
`updateSubscribers`, no subscriber with a failed send is registered and no subscriber
was sent to after one of its sends failed; in particular a subscriber whose send
fails in a pass is no longer registered when that pass returns. -/
theorem failed_subscriber_never_sent_again {R : Type} (w : World R) (hw : Reachable w) :
    (∀ ev ∈ w.sends, ev.err = true → ev.sub ∉ w.registry) ∧ NoSendAfterFailure w.sends ∧
      ∀ fuel fails sample w1, updateSubscribers fuel fails sample w = some w1 →
        ∀ ev ∈ w1.sends.drop w.sends.length, ev.err = true → ev.sub ∉ w1.registry := by
  obtain ⟨_, _, _, h2, h3⟩ := hw.invariant
  refine ⟨h2, h3, ?_⟩
  intro fuel fails sample w1 h1 ev hev herr
  obtain ⟨_, _, _, h4, _⟩ := (Reachable.update fuel fails sample hw h1).invariant
  exact h4 ev (List.mem_of_mem_drop hev) herr

theorem failed_subscriber_never_sent_again_witness :
    Reachable world4 ∧
      ((∀ ev ∈ world4.sends, ev.err = true → ev.sub ∉ world4.registry) ∧
        NoSendAfterFailure world4.sends ∧
        ∀ fuel fails sample w1, updateSubscribers fuel fails sample world4 = some w1 →
          ∀ ev ∈ w1.sends.drop world4.sends.length, ev.err = true → ev.sub ∉ w1.registry) :=
  ⟨world4_reachable, failed_subscriber_never_sent_again world4 world4_reachable⟩

/-- C1: a registry of two subscribers whose sends both fail.  After one pass of
`updateSubscribers` one subscriber is still registered, the second, to which nothing
was sent: the pass ended at the first failure. -/
theorem updateSubscribers_two_failing :
    (updateSubscribers 2 (fun _ => true) sample0 world2).map (fun w => (w.registry, w.sentSince 0)) =
      some ([1], [(0, true)]) := by
  decide

/-- C2: a registry of three subscribers of which the first fails.  The pass invokes
`Send` on the first subscriber only; the healthy subscribers `1` and `2` are not sent
the sample of this tick. -/
theorem updateSubscribers_skips_after_failure :
    (updateSubscribers 3 (fun s => s == 0) sample0 world3).map (fun w => (w.sentSince 0, w.registry)) =
      some ([(0, true)], [1, 2]) := by
  decide

/-- C3: after a pass in which the send to subscriber `1` failed, `Close` has been
invoked on no subscriber. -/
theorem updateSubscribers_closes_nothing :
    world4.sentSince 0 = [(0, false), (1, true)] ∧ world4.registry = [0, 2] ∧
      world4.closed = [] := by
  decide

/-! ## Waveform generators: claims -/

theorem wrapInt_small (x : Int) (h0 : 0 ≤ x) (h1 : x < 2 ^ 63) : wrapInt x = x := by
  unfold wrapInt
  omega

/-- One call of `Next` with the cursor at `j`, inside the table. -/
theorem ArrayGenerator.next_at {R : Type} (factors : List R) (j : Nat) (hj : j < factors.length)
    (hmax : factors.length < 2 ^ 63) :
    ∃ f, factors[j]? = some f ∧
      ArrayGenerator.Next ⟨factors, (j : Int)⟩ =
        some (f, ⟨factors, (((j + 1) % factors.length : Nat) : Int)⟩) := by
  refine ⟨factors[j], List.getElem?_eq_getElem hj, ?_⟩
  have h1 : sliceIndex factors (j : Int) = some factors[j] := by
    simp [sliceIndex, hj, List.getElem?_eq_getElem hj]
  have h2 : wrapInt ((j : Int) + 1) = (j : Int) + 1 := by
    apply wrapInt_small <;> omega
  simp only [ArrayGenerator.Next, h1, h2, Option.bind_eq_bind, Option.some_bind, Option.pure_def,
    Option.some.injEq, Prod.mk.injEq, true_and, ArrayGenerator.mk.injEq]
  by_cases hc : j + 1 = factors.length
  · have : ((j : Int) + 1 = (factors.length : Int)) := by omega
    simp [this, hc]
  · have : ¬ ((j : Int) + 1 = (factors.length : Int)) := by omega
    have hlt : j + 1 < factors.length := by omega
    simp [this, Nat.mod_eq_of_lt hlt]

/-- The values of `k` calls of `Next` from the cursor `j`: the table read cyclically. -/
theorem ArrayGenerator.nextN_from {R : Type} (factors : List R)
    (hmax : factors.length < 2 ^ 63) (k j : Nat) (hj : j < factors.length) :
    ∃ vals, ArrayGenerator.nextN k ⟨factors, (j : Int)⟩ =
        some (vals, ⟨factors, (((j + k) % factors.length : Nat) : Int)⟩) ∧
      vals.map some = (List.range k).map (fun i => factors[(j + i) % factors.length]?) := by
  induction k generalizing j with
  | zero =>
    refine ⟨[], ?_, rfl⟩
    simp [ArrayGenerator.nextN, Nat.mod_eq_of_lt hj]
  | succ k ih =>
    obtain ⟨f, hf, hnext⟩ := ArrayGenerator.next_at factors j hj hmax
    have hN : 0 < factors.length := by omega
    obtain ⟨vals, hv1, hv2⟩ := ih ((j + 1) % factors.length) (Nat.mod_lt _ hN)
    refine ⟨f :: vals, ?_, ?_⟩
    · simp only [ArrayGenerator.nextN, hnext, hv1, Option.bind_eq_bind, Option.some_bind,
        Option.pure_def, Option.some.injEq, Prod.mk.injEq, true_and, ArrayGenerator.mk.injEq]
      have : ((j + 1) % factors.length + k) % factors.length = (j + (k + 1)) % factors.length := by
        rw [Nat.add_mod, Nat.mod_mod, ← Nat.add_mod]
        congr 1
        omega
      rw [this]
    · rw [List.range_succ_eq_map, List.map_cons, List.map_cons, List.map_map, hv2]
      congr 1
      · simp [Nat.mod_eq_of_lt hj, hf]
      · apply List.map_congr_left
        intro i _
        simp only [Function.comp]
        have : ((j + 1) % factors.length + i) % factors.length =
            (j + (i + 1)) % factors.length := by
          rw [Nat.add_mod, Nat.mod_mod, ← Nat.add_mod]
          congr 1
          omega
        rw [this]

/-- C6: an `ArrayGenerator` over a non-empty table of length `N` with the cursor at `0`.
Any number `n` of successive calls of `Next` return (no lookup is out of range), the
`k`-th call (`1 ≤ k ≤ n`) returns `table[(k-1) mod N]`, so that the `(N+1)`-th call
returns what the first returned, and the cursor is left at `n mod N`, within
`0..N-1`. -/
theorem arrayGenerator_next_cycles {R : Type} (factors : List R) (hN : 0 < factors.length)
    (hmax : factors.length < 2 ^ 63) (n : Nat) :
    ∃ vals g, ArrayGenerator.nextN n ⟨factors, 0⟩ = some (vals, g) ∧ vals.length = n ∧
      (∀ k, 1 ≤ k → k ≤ n → vals[k - 1]? = factors[(k - 1) % factors.length]?) ∧
      (factors.length + 1 ≤ n → vals[factors.length]? = vals[0]?) ∧
      g.factors = factors ∧ g.index = ((n % factors.length : Nat) : Int) ∧
      0 ≤ g.index ∧ g.index < factors.length := by
  obtain ⟨vals, h1, h2⟩ := ArrayGenerator.nextN_from factors hmax n 0 hN
  have hlen : vals.length = n := by
    have := congrArg List.length h2
    simpa using this
  have hget : ∀ i, i < n → vals[i]? = factors[i % factors.length]? := by
    intro i hi
    have := congrArg (fun l => l[i]?) h2
    simp only [List.getElem?_map, zero_add] at this
    rw [List.getElem?_range hi] at this
    have hi2 : i < vals.length := by omega
    have hv : vals[i]? = some vals[i] := List.getElem?_eq_getElem hi2
    rw [hv] at this ⊢
    simpa using this
  refine ⟨vals, _, h1, hlen, ?_, ?_, rfl, ?_, ?_, ?_⟩
  · intro k hk1 hk2
    exact hget (k - 1) (by omega)
  · intro hn
    rw [hget factors.length (by omega), hget 0 (by omega)]
    simp
  · simp
  · exact Int.natCast_nonneg _
  · have := Nat.mod_lt n hN
    simp only [zero_add]
    omega

theorem arrayGenerator_next_cycles_witness :
    0 < [10, 20, 30].length ∧ [10, 20, 30].length < 2 ^ 63 ∧
    ∃ vals g, ArrayGenerator.nextN 4 ⟨[10, 20, 30], 0⟩ = some (vals, g) ∧ vals.length = 4 ∧
      (∀ k, 1 ≤ k → k ≤ 4 → vals[k - 1]? = [10, 20, 30][(k - 1) % [10, 20, 30].length]?) ∧
      ([10, 20, 30].length + 1 ≤ 4 → vals[[10, 20, 30].length]? = vals[0]?) ∧
      g.factors = [10, 20, 30] ∧ g.index = ((4 % [10, 20, 30].length : Nat) : Int) ∧
      0 ≤ g.index ∧ g.index < [10, 20, 30].length :=
  ⟨by decide, by decide, arrayGenerator_next_cycles [10, 20, 30] (by decide) (by decide) 4⟩

/-- C7: with `GEN_WAVEFORM=square` and any amplitude `a`, the values of the samples
`emit` builds on the first seventeen ticks are `a` eight times, then `-a` eight times,
then `a` again.  The values range over any type whose multiplication satisfies
`1 * a = a` and `(-1) * a = -a`, as that of `float64` does. -/
theorem square_wave_ticks {R : Type} [MulOneClass R] [HasDistribNeg R] [Zero R] [Add R]
    [OfScientific R] (sin : R → R) (piOver8 a : R) (t : Nat → Int) :
    (emitSamples sin a ((List.range 17).map t) (selectGenerator piOver8 "square").1).map
        (fun r => r.1.map Sample.Value) =
      some (List.replicate 8 a ++ List.replicate 8 (-a) ++ [a]) := by
  have hr : List.range 17 = [0, 1, 2, 3, 4, 5, 6, 7, 8, 9, 10, 11, 12, 13, 14, 15, 16] := by
    decide
  simp [hr, selectGenerator, emitSamples, emitSample, Generator.Next, ArrayGenerator.Next,
    sliceIndex, square, wrapInt, List.replicate]

/-! ## The frame: claims -/

theorem digitChar_ne_nul (d : Nat) (h : d < 10) : Nat.digitChar d ≠ NUL := by
  interval_cases d <;> decide

theorem toDigitsCore_no_nul (fuel n : Nat) (acc : List Char) (h : NUL ∉ acc) :
    NUL ∉ Nat.toDigitsCore 10 fuel n acc := by
  induction fuel generalizing n acc with
  | zero => simpa [Nat.toDigitsCore] using h
  | succ fuel ih =>
    have hd : NUL ∉ Nat.digitChar (n % 10) :: acc := by
      simp only [List.mem_cons, not_or]
      exact ⟨(digitChar_ne_nul _ (Nat.mod_lt _ (by decide))).symm, h⟩
    simp only [Nat.toDigitsCore]
    split
    · exact hd
    · exact ih _ _ hd

theorem formatInt_no_nul (i : Int) : NUL ∉ formatInt i := by
  unfold formatInt
  split
  · simp only [List.mem_cons, not_or]
    exact ⟨by decide, toDigitsCore_no_nul _ _ [] (by simp)⟩
  · exact toDigitsCore_no_nul _ _ [] (by simp)

theorem marshal_no_nul {R : Type} (formatFloat : R → Option (List Char)) (x : Sample R)
    (payload : List Char) (hnul : ∀ v, formatFloat x.Value = some v → NUL ∉ v)
    (h : marshal formatFloat x = some payload) : NUL ∉ payload := by
  unfold marshal at h
  cases hv : formatFloat x.Value with
  | none => simp [hv] at h
  | some v =>
    simp only [hv, Option.map_some', Option.some.injEq] at h
    rw [← h]
    simp only [List.mem_append, not_or]
    exact ⟨⟨⟨⟨by decide, formatInt_no_nul _⟩, by decide⟩, hnul v hv⟩, by decide⟩

/-- A send that returns no error, on a writer with nothing buffered, writes to the
connection the encoded sample, a line feed and the delimiter. -/
theorem send_ok {R : Type} (formatFloat : R → Option (List Char)) (s : Subscriber)
    (x : Sample R) (hbuf : s.buf = []) (h : (s.Send formatFloat x).1 = false) :
    ∃ payload, marshal formatFloat x = some payload ∧
      (s.Send formatFloat x).2 =
        { s with conn := { s.conn with wire := s.conn.wire ++ (payload ++ [LF, NUL]) } } := by
  obtain ⟨conn, buf, werr⟩ := s
  obtain ⟨wire, broken⟩ := conn
  simp only at hbuf
  subst hbuf
  cases hm : marshal formatFloat x with
  | none => simp [Subscriber.Send, Subscriber.encode, hm] at h
  | some payload =>
    refine ⟨payload, rfl, ?_⟩
    cases werr <;> cases broken <;>
      simp [Subscriber.Send, Subscriber.encode, hm, Subscriber.bufWrite, Subscriber.bufWriteByte,
        Subscriber.bufFlush] at h ⊢

theorem recordsAux_frame (cur p rest : List Char) (h : NUL ∉ p) :
    recordsAux cur (p ++ NUL :: rest) = (cur.reverse ++ p) :: recordsAux [] rest := by
  induction p generalizing cur with
  | nil => simp [recordsAux]
  | cons c p ih =>
    simp only [List.mem_cons, not_or] at h
    have hc : c ≠ NUL := fun hc => h.1 hc.symm
    show recordsAux cur (c :: (p ++ NUL :: rest)) = _
    rw [recordsAux, if_neg hc, ih _ h.2]
    simp

theorem records_frames (payloads : List (List Char)) (h : ∀ p ∈ payloads, NUL ∉ p) :
    records (payloads.map (fun p => p ++ [LF, NUL])).flatten =
      payloads.map (fun p => p ++ [LF]) := by
  unfold records
  induction payloads with
  | nil => simp [recordsAux]
  | cons p ps ih =>
    have hp : NUL ∉ p ++ [LF] := by
      simp only [List.mem_append, List.mem_singleton, not_or]
      exact ⟨h p (by simp), by decide⟩
    have : (p ++ [LF, NUL]) ++ (ps.map (fun p => p ++ [LF, NUL])).flatten =
        (p ++ [LF]) ++ NUL :: (ps.map (fun p => p ++ [LF, NUL])).flatten := by simp
    simp only [List.map_cons, List.flatten_cons]
    rw [this, recordsAux_frame _ _ _ hp, ih (fun q hq => h q (List.mem_cons_of_mem _ hq))]
    simp

theorem sendAll_wire {R : Type} (formatFloat : R → Option (List Char)) (samples : List (Sample R))
    (s s1 : Subscriber) (hbuf : s.buf = [])
    (hsend : sendAll formatFloat s samples = some s1) :
    ∃ payloads : List (List Char), samples.map (marshal formatFloat) = payloads.map some ∧
      s1.conn.wire = s.conn.wire ++ (payloads.map (fun p => p ++ [LF, NUL])).flatten ∧
      s1.buf = [] := by
  induction samples generalizing s with
  | nil =>
    simp only [sendAll, Option.some.injEq] at hsend
    subst hsend
    exact ⟨[], rfl, by simp, hbuf⟩
  | cons x xs ih =>
    simp only [sendAll] at hsend
    cases hr : (s.Send formatFloat x).1 with
    | true => simp [hr] at hsend
    | false =>
      simp only [hr, Bool.false_eq_true, if_false] at hsend
      obtain ⟨payload, hm, hs⟩ := send_ok formatFloat s x hbuf hr
      have hbuf2 : (s.Send formatFloat x).2.buf = [] := by rw [hs]; exact hbuf
      obtain ⟨payloads, h1, h2, h3⟩ := ih _ hbuf2 hsend
      refine ⟨payload :: payloads, by simp [hm, h1], ?_, h3⟩
      rw [h2, hs]
      simp

/-- C5, as amended: the bytes successful sends write to the connection are, for each
sample, the JSON object with the fields `timestamp` and `value` in this order,
followed by a line feed (`0x0A`, written by `Encode`) and then by one `0x00`; nothing
else is written.  Splitting the stream of `n` sends on `0x00` yields `n` records, each
the JSON payload followed by the line feed. -/
theorem send_frame_json_lf_nul {R : Type} (formatFloat : R → Option (List Char))
    (s s1 : Subscriber) (samples : List (Sample R)) (hbuf : s.buf = [])
    (hnul : ∀ x ∈ samples, ∀ v, formatFloat x.Value = some v → NUL ∉ v)
    (hsend : sendAll formatFloat s samples = some s1) :
    ∃ payloads : List (List Char), samples.map (marshal formatFloat) = payloads.map some ∧
      (∀ x ∈ samples, ∃ v, formatFloat x.Value = some v ∧
        marshal formatFloat x = some ("\x7b\"timestamp\":".toList ++ formatInt x.Timestamp ++
          ",\"value\":".toList ++ v ++ "\x7d".toList)) ∧
      s1.conn.wire = s.conn.wire ++ (payloads.map (fun p => p ++ [LF, NUL])).flatten ∧
      (s.conn.wire = [] → records s1.conn.wire = payloads.map (fun p => p ++ [LF])) := by
  obtain ⟨payloads, h1, h2, _⟩ := sendAll_wire formatFloat samples s s1 hbuf hsend
  have hmem : ∀ x ∈ samples, ∃ p ∈ payloads, marshal formatFloat x = some p := by
    intro x hx
    have : marshal formatFloat x ∈ payloads.map some := by
      rw [← h1]
      exact List.mem_map_of_mem _ hx
    obtain ⟨p, hp, hpe⟩ := List.mem_map.mp this
    exact ⟨p, hp, hpe.symm⟩
  refine ⟨payloads, h1, ?_, h2, ?_⟩
  · intro x hx
    obtain ⟨p, _, hp⟩ := hmem x hx
    cases hv : formatFloat x.Value with
    | none => simp [marshal, hv] at hp
    | some v => exact ⟨v, rfl, by simp [marshal, hv]⟩
  · intro hw
    rw [h2, hw, List.nil_append]
    apply records_frames
    intro p hp
    have : some p ∈ samples.map (marshal formatFloat) := by
      rw [h1]
      exact List.mem_map_of_mem _ hp
    obtain ⟨x, hx, hxe⟩ := List.mem_map.mp this
    exact marshal_no_nul formatFloat x p (hnul x hx) hxe

theorem send_frame_json_lf_nul_witness :
    (Subscriber.new ⟨[], false⟩).buf = [] ∧
    (∀ x ∈ [sample12, sample13], ∀ v, formatLiteral x.Value = some v → NUL ∉ v) ∧
    sendAll formatLiteral (Subscriber.new ⟨[], false⟩) [sample12, sample13] = some sentTwo ∧
    ∃ payloads : List (List Char),
      [sample12, sample13].map (marshal formatLiteral) = payloads.map some ∧
      (∀ x ∈ [sample12, sample13], ∃ v, formatLiteral x.Value = some v ∧
        marshal formatLiteral x = some ("\x7b\"timestamp\":".toList ++ formatInt x.Timestamp ++
          ",\"value\":".toList ++ v ++ "\x7d".toList)) ∧
      sentTwo.conn.wire = (Subscriber.new ⟨[], false⟩).conn.wire ++
        (payloads.map (fun p => p ++ [LF, NUL])).flatten ∧
      ((Subscriber.new ⟨[], false⟩).conn.wire = [] →
        records sentTwo.conn.wire = payloads.map (fun p => p ++ [LF])) :=
  have hnul : ∀ x ∈ [sample12, sample13], ∀ v, formatLiteral x.Value = some v → NUL ∉ v := by
    intro x hx v hv
    simp only [List.mem_cons, List.mem_singleton, List.not_mem_nil, or_false] at hx
    rcases hx with rfl | rfl
    · simp only [formatLiteral, Option.some.injEq] at hv
      rw [← hv]
      decide
    · simp only [formatLiteral, Option.some.injEq] at hv
      rw [← hv]
      decide
  ⟨rfl, hnul, (Option.some_get _).symm,
    send_frame_json_lf_nul formatLiteral (Subscriber.new ⟨[], false⟩) sentTwo
      [sample12, sample13] rfl hnul (Option.some_get _).symm⟩

/-- C5, as stated, fails: for `Sample{Timestamp: 1700000000, Value: 12.5}` the send
succeeds and the bytes on the connection are the JSON object, a line feed, and the
`0x00`; they are not the JSON object immediately followed by `0x00`, and the one record
obtained by splitting on `0x00` is not the JSON payload. -/
theorem send_frame_has_line_feed :
    ((Subscriber.new ⟨[], false⟩).Send formatLiteral sample12).1 = false ∧
    ((Subscriber.new ⟨[], false⟩).Send formatLiteral sample12).2.conn.wire =
      "\x7b\"timestamp\":1700000000,\"value\":12.5\x7d\n\x00".toList ∧
    ((Subscriber.new ⟨[], false⟩).Send formatLiteral sample12).2.conn.wire ≠
      "\x7b\"timestamp\":1700000000,\"value\":12.5\x7d\x00".toList ∧
    records ((Subscriber.new ⟨[], false⟩).Send formatLiteral sample12).2.conn.wire ≠
      ["\x7b\"timestamp\":1700000000,\"value\":12.5\x7d".toList] := by
  decide

end Waveform
